import Mathlib

set_option maxHeartbeats 1000000

/-!
Verification development for the core of an incremental view-maintenance
engine: the time lattice (`advance_by`), the fueled `Spine` trace
(insertion, merging, cursors), and the delta-join operators
(`AltNeu` ordering, `propose_then` / `validate`).

All definitions are shallow embeddings of the corresponding source
functions; the few collaborators whose implementation is not part of the
sources (the batch `Builder`, the `Merger`, the `AltNeu` module and
`propose_then`) are modelled from the specification and carry a doc
comment saying so.
-/

/-- Operations of the `Lattice` trait of `src/lattice.rs`: a partial order
`less_equal` with `join`, `meet`, `minimum`, `maximum`.  The trait laws are
taken as hypotheses in the theorems. -/
structure LatticeOps (α : Type) where
  less_equal : α → α → Prop
  join : α → α → α
  meet : α → α → α
  minimum : α
  maximum : α

/-- `Lattice::advance_by` as implemented in `src/lattice.rs`: for a
non-empty frontier, fold `meet(result, join(self, f))` starting from
`join(self, frontier[0])`; for the empty frontier return `maximum`. -/
def LatticeOps.advance_by {α : Type} (L : LatticeOps α) (t : α) (frontier : List α) : α :=
  match frontier with
  | [] => L.maximum
  | f :: rest => rest.foldl (fun result f2 => L.meet result (L.join t f2)) (L.join t f)

/-- The `usize` instance of the lattice (`implement_lattice!(usize, ...)`):
join is max, meet is min, over `Nat` as the unbounded model of the index
type (maximum plays no role for the non-empty-frontier claims). -/
def natLattice : LatticeOps Nat :=
  { less_equal := fun a b => a ≤ b
    join := fun a b => max a b
    meet := fun a b => min a b
    minimum := 0
    maximum := 0 }

/-- Panicking computations (`assert!` / `panic!` in the source) are
modelled with `Except String`. -/
abbrev Panics (σ : Type) : Type := Except String σ

/-- A batch as observed by the spine of
`src/trace/implementations/spine_fueled_neu.rs`: its `lower` and `upper`
frontiers and its record count `len` (the spine never inspects the
records themselves).  `is_empty()` of the source is `len = 0`. -/
structure RBatch (α : Type) where
  lower : List α
  upper : List α
  len : Nat
deriving DecidableEq, Repr

/-- Modelled from the spec: the `Merger` of the batch implementation (not
among the sources) performs work measured in records; `remaining` is the
number of input records not yet consumed. -/
structure RMerger where
  remaining : Nat
deriving DecidableEq, Repr

/-- Modelled from the spec: `Merger::work(&b1, &b2, &frontier, fuel)`
consumes up to `fuel` records and decrements `fuel` by the records
consumed, returning when fuel is exhausted or the merge is done. -/
def RMerger.work {α : Type} (m : RMerger) (_b1 _b2 : RBatch α) (_frontier : Option (List α))
    (fuel : Int) : RMerger × Int :=
  let consumed := min m.remaining fuel.toNat
  (⟨m.remaining - consumed⟩, fuel - (consumed : Int))

/-- `MergeVariant` of the spine: an in-progress merge of two batches
(with the compaction frontier and the merger state), or a completed merge
(optionally carrying the merged batch and its two inputs). -/
inductive MergeVariant (α : Type) where
  | InProgress : RBatch α → RBatch α → Option (List α) → RMerger → MergeVariant α
  | Complete : Option (RBatch α × Option (RBatch α × RBatch α)) → MergeVariant α
deriving DecidableEq, Repr

/-- `MergeVariant::work`: apply fuel to an in-progress merge; if fuel
remains positive afterwards the merge is complete and `done()` is taken.
The merged batch spans `[b1.lower, b2.upper)`; its record count is
modelled (from the spec) as the sum of the inputs (the model tracks no
record content, so coalescing is the identity). -/
def MergeVariant.work {α : Type} : MergeVariant α → Int → MergeVariant α × Int
  | .InProgress b1 b2 frontier m, fuel =>
      let r := m.work b1 b2 frontier fuel
      if r.2 > 0 then
        (.Complete (some (⟨b1.lower, b2.upper, b1.len + b2.len⟩, some (b1, b2))), r.2)
      else
        (.InProgress b1 b2 frontier r.1, r.2)
  | v, fuel => (v, fuel)

/-- `isize::max_value()`, used by `MergeVariant::complete`. -/
def isizeMax : Int := 9223372036854775807

/-- `MergeVariant::complete`: drive the merge to completion with maximal
fuel; panics if the merge still fails to complete. -/
def MergeVariant.complete {α : Type} (v : MergeVariant α) :
    Panics (Option (RBatch α × Option (RBatch α × RBatch α))) :=
  match (MergeVariant.work v isizeMax).1 with
  | .Complete batch => .ok batch
  | .InProgress _ _ _ _ => .error "Failed to complete a merge"

/-- `MergeState` of the spine: a layer is vacant, holds a single
(possibly structurally empty) batch, or a merge of two batches. -/
inductive MergeState (α : Type) where
  | Vacant : MergeState α
  | Single : Option (RBatch α) → MergeState α
  | Double : MergeVariant α → MergeState α
deriving DecidableEq, Repr

/-- `MergeState::len`: the number of actual updates in the level. -/
def MergeState.len {α : Type} : MergeState α → Nat
  | .Single (some b) => b.len
  | .Double (.InProgress b1 b2 _ _) => b1.len + b2.len
  | .Double (.Complete (some (b, _))) => b.len
  | _ => 0

/-- `MergeState::is_vacant`. -/
def MergeState.is_vacant {α : Type} : MergeState α → Bool
  | .Vacant => true
  | _ => false

/-- `MergeState::is_single`. -/
def MergeState.is_single {α : Type} : MergeState α → Bool
  | .Single _ => true
  | _ => false

/-- `MergeState::is_double`. -/
def MergeState.is_double {α : Type} : MergeState α → Bool
  | .Double _ => true
  | _ => false

/-- `MergeState::is_complete`. -/
def MergeState.is_complete {α : Type} : MergeState α → Bool
  | .Double (.Complete _) => true
  | _ => false

/-- `MergeState::complete`, the extraction part (the replacement of the
slot by `Vacant` is performed by the caller `complete_at`). -/
def MergeState.complete {α : Type} : MergeState α →
    Panics (Option (RBatch α × Option (RBatch α × RBatch α)))
  | .Vacant => .ok none
  | .Single batch => .ok (batch.map (fun b => (b, none)))
  | .Double variant => variant.complete

/-- `MergeState::work`: perform bounded work for merges in progress. -/
def MergeState.work {α : Type} : MergeState α → Int → MergeState α × Int
  | .Double v, fuel =>
      let r := MergeVariant.work v fuel
      (.Double r.1, r.2)
  | s, fuel => (s, fuel)

/-- `MergeState::begin_merge`: merging an old with a new batch asserts
`old.upper == new.lower`; a `None` side completes immediately. -/
def MergeState.begin_merge {α : Type} [DecidableEq α]
    (batch1 batch2 : Option (RBatch α)) (frontier : Option (List α)) :
    Panics (MergeState α) :=
  match batch1, batch2 with
  | some b1, some b2 =>
      if b1.upper = b2.lower then
        .ok (.Double (.InProgress b1 b2 frontier ⟨b1.len + b2.len⟩))
      else
        .error "assert failed in begin_merge: batch1.upper == batch2.lower"
  | none, some x => .ok (.Double (.Complete (some (x, none))))
  | some x, none => .ok (.Double (.Complete (some (x, none))))
  | none, none => .ok (.Double (.Complete none))

/-- The batches a `MergeState` contributes to a cursor, in the order the
source pushes them. -/
def MergeState.batches {α : Type} : MergeState α → List (RBatch α)
  | .Double (.InProgress b1 b2 _ _) => [b1, b2]
  | .Double (.Complete (some (b, _))) => [b]
  | .Single (some b) => [b]
  | _ => []

/-- The state of `Spine` (the operator/logger/activator handles carry no
update state and are omitted). -/
structure Spine (α : Type) where
  advance_frontier : List α
  through_frontier : List α
  merging : List (MergeState α)
  pending : List (RBatch α)
  upper : List α
  effort : Nat
deriving DecidableEq, Repr

/-- `F.iter().all(|t1| G.iter().any(|t2| t2.less_equal(t1)))`: every
element of `F` is at or beyond some element of `G` (`F` dominates `G`). -/
def dominates {α : Type} (le : α → α → Bool) (F G : List α) : Bool :=
  F.all (fun t1 => G.any (fun t2 => le t2 t1))

/-- The frontier partial order of timely (`F ≤ G` iff every element of
`G` is at or beyond some element of `F`). -/
def frontier_le {α : Type} (le : α → α → Bool) (F G : List α) : Bool :=
  G.all (fun g => F.any (fun f => le f g))

/-- `usize::trailing_zeros`, fuelled helper (the fuel is the number
itself, which bounds the number of halvings). -/
def tzGo : Nat → Nat → Nat
  | 0, _ => 64
  | _ + 1, 0 => 64
  | fuel + 1, n + 1 => if (n + 1) % 2 = 1 then 0 else tzGo fuel ((n + 1) / 2) + 1

/-- `usize::trailing_zeros` (64 for zero, as for a 64-bit word). -/
def trailing_zeros (n : Nat) : Nat := tzGo n n

/-- `usize::next_power_of_two`, fuelled helper. -/
def nptGo : Nat → Nat → Nat
  | 0, _ => 1
  | fuel + 1, n => if n ≤ 1 then 1 else 2 * nptGo fuel ((n + 1) / 2)

/-- `usize::next_power_of_two`: the least power of two that is ≥ n
(1 for n ≤ 1). -/
def next_power_of_two (n : Nat) : Nat := nptGo n n

/-- The level at which the spine introduces a batch of `n` records:
`n.next_power_of_two().trailing_zeros()`. -/
def batch_level (n : Nat) : Nat := trailing_zeros (next_power_of_two n)

/-- Extend the `merging` vector with `Vacant` entries until its length
is at least `n` (the `while self.merging.len() <= index` loops). -/
def padVacant {α : Type} (l : List (MergeState α)) (n : Nat) : List (MergeState α) :=
  l ++ List.replicate (n - l.length) MergeState.Vacant

/-- `Spine::insert_at`: place a batch at a level; a vacant slot becomes
`Single`, a `Single` slot starts a merge, a `Double` slot is a panic. -/
def Spine.insert_at {α : Type} [DecidableEq α] (s : Spine α) (batch : Option (RBatch α))
    (index : Nat) : Panics (Spine α) :=
  let merging := padVacant s.merging (index + 1)
  match merging.getD index MergeState.Vacant with
  | .Vacant => .ok {s with merging := merging.set index (.Single batch)}
  | .Single old =>
      match MergeState.begin_merge old batch (some s.advance_frontier) with
      | .error e => .error e
      | .ok st => .ok {s with merging := merging.set index st}
  | .Double _ => .error "Attempted to insert batch into incomplete merge"

/-- `Spine::complete_at`: complete and extract whatever is at a level,
leaving the slot vacant. -/
def Spine.complete_at {α : Type} (s : Spine α) (index : Nat) :
    Panics (Option (RBatch α) × Spine α) :=
  match MergeState.complete (s.merging.getD index MergeState.Vacant) with
  | .error e => .error e
  | .ok r => .ok (r.map (fun x => x.1), {s with merging := s.merging.set index MergeState.Vacant})

/-- The `for i in 0 .. index` loop of `Spine::roll_up`: insert the
running merged batch at level `i`, then complete and extract level `i`. -/
def Spine.rollLoop {α : Type} [DecidableEq α] :
    Nat → Nat → Option (RBatch α) → Spine α → Panics (Option (RBatch α) × Spine α)
  | 0, _, merged, s => .ok (merged, s)
  | remaining + 1, i, merged, s =>
      match Spine.insert_at s merged i with
      | .error e => .error e
      | .ok s1 =>
          match Spine.complete_at s1 i with
          | .error e => .error e
          | .ok (m2, s2) => Spine.rollLoop remaining (i + 1) m2 s2

/-- `Spine::roll_up`: fold all batches at levels below `index` into a
single batch inserted at `index`, completing at `index` if that
insertion started a merge. -/
def Spine.roll_up {α : Type} [DecidableEq α] (s : Spine α) (index : Nat) : Panics (Spine α) :=
  let s : Spine α := {s with merging := padVacant s.merging (index + 1)}
  if (s.merging.take index).any (fun m => !m.is_vacant) then
    match Spine.rollLoop index 0 none s with
    | .error e => .error e
    | .ok (merged, s1) =>
        match Spine.insert_at s1 merged index with
        | .error e => .error e
        | .ok s2 =>
            if (s2.merging.getD index MergeState.Vacant).is_double then
              match Spine.complete_at s2 index with
              | .error e => .error e
              | .ok (merged2, s3) => Spine.insert_at s3 merged2 (index + 1)
            else .ok s2
  else .ok s

/-- The `for index in 0 .. self.merging.len()` loop of
`Spine::apply_fuel` (the bound is evaluated once at entry; each level
receives an independent copy of the fuel). -/
def Spine.apply_fuelGo {α : Type} [DecidableEq α] (fuel : Int) :
    Nat → Nat → Spine α → Panics (Spine α)
  | _, 0, s => .ok s
  | index, rem + 1, s =>
      let r := MergeState.work (s.merging.getD index MergeState.Vacant) fuel
      let s1 : Spine α := {s with merging := s.merging.set index r.1}
      if (s1.merging.getD index MergeState.Vacant).is_complete then
        match Spine.complete_at s1 index with
        | .error e => .error e
        | .ok (complete, s2) =>
            match Spine.insert_at s2 complete (index + 1) with
            | .error e => .error e
            | .ok s3 => Spine.apply_fuelGo fuel (index + 1) rem s3
      else Spine.apply_fuelGo fuel (index + 1) rem s1

/-- `Spine::apply_fuel`. -/
def Spine.apply_fuel {α : Type} [DecidableEq α] (s : Spine α) (fuel : Int) : Panics (Spine α) :=
  Spine.apply_fuelGo fuel 0 s.merging.length s

/-- The bookkeeping record count of `Spine::tidy_layers`: `1 << index`
per `Single` slot and `2 << index` per `Double` slot at lower levels. -/
def tidy_smaller {α : Type} : List (MergeState α) → Nat → Nat
  | [], _ => 0
  | m :: rest, index =>
      (match m with
       | .Vacant => 0
       | .Single _ => 2 ^ index
       | .Double _ => 2 ^ (index + 1)) + tidy_smaller rest (index + 1)

/-- The `while appropriate_level < length - 1` loop of
`Spine::tidy_layers` (the fuel is the length of `merging`, which the
loop strictly decreases whenever it continues). -/
def Spine.tidyLoop {α : Type} [DecidableEq α] :
    Nat → Nat → Spine α → Panics (Spine α)
  | 0, _, s => .ok s
  | fuel + 1, appropriate_level, s =>
      let length := s.merging.length
      if appropriate_level < length - 1 then
        match s.merging.getD (length - 2) MergeState.Vacant with
        | .Vacant =>
            Spine.tidyLoop fuel appropriate_level
              {s with merging := s.merging.eraseIdx (length - 2)}
        | .Single none =>
            Spine.tidyLoop fuel appropriate_level
              {s with merging := s.merging.eraseIdx (length - 2)}
        | .Single (some batch) =>
            let smaller := tidy_smaller (s.merging.take (length - 2)) 0
            if smaller ≤ 2 ^ length / 8 then
              Spine.insert_at {s with merging := s.merging.eraseIdx (length - 2)}
                (some batch) (length - 2)
            else .ok s
        | .Double _ => .ok s
      else .ok s

/-- `Spine::tidy_layers`: attempt to draw the largest layer down to a
size-appropriate level. -/
def Spine.tidy_layers {α : Type} [DecidableEq α] (s : Spine α) : Panics (Spine α) :=
  if s.merging.isEmpty then .ok s
  else
    let length := s.merging.length
    let top := s.merging.getD (length - 1) MergeState.Vacant
    if top.is_single then
      Spine.tidyLoop s.merging.length (batch_level top.len) s
    else .ok s

/-- `Spine::introduce_batch`: fuel every in-progress merge with
`8 << batch_index` (scaled by the effort multiplier), roll lower levels
up, insert at the level, and tidy. -/
def Spine.introduce_batch {α : Type} [DecidableEq α] (s : Spine α)
    (batch : Option (RBatch α)) (batch_index : Nat) : Panics (Spine α) :=
  let fuel : Int := ((8 * 2 ^ batch_index * s.effort : Nat) : Int)
  match Spine.apply_fuel s fuel with
  | .error e => .error e
  | .ok s1 =>
      match Spine.roll_up s1 batch_index with
      | .error e => .error e
      | .ok s2 =>
          match Spine.insert_at s2 batch batch_index with
          | .error e => .error e
          | .ok s3 => Spine.tidy_layers s3

/-- The `while` loop of `Spine::consider_merges` (the fuel is the length
of `pending`, which the loop strictly decreases). -/
def Spine.considerLoop {α : Type} [DecidableEq α] (le : α → α → Bool) :
    Nat → Spine α → Panics (Spine α)
  | 0, s => .ok s
  | fuel + 1, s =>
      match s.pending with
      | [] => .ok s
      | b :: rest =>
          if dominates le s.through_frontier b.upper then
            match Spine.introduce_batch {s with pending := rest} (some b)
                (batch_level b.len) with
            | .error e => .error e
            | .ok s1 => Spine.considerLoop le fuel s1
          else .ok s

/-- `Spine::consider_merges`: migrate batches from `pending` into the
merging layers while the through frontier dominates the head's upper. -/
def Spine.consider_merges {α : Type} [DecidableEq α] (le : α → α → Bool) (s : Spine α) :
    Panics (Spine α) :=
  Spine.considerLoop le s.pending.length s

/-- The per-level loop of `Spine::reduced`. -/
def Spine.reducedGo {α : Type} : List (MergeState α) → Nat → Bool
  | [], _ => true
  | m :: rest, non_empty =>
      if m.is_double then false
      else
        let non_empty := if m.len > 0 then non_empty + 1 else non_empty
        if non_empty > 1 then false else Spine.reducedGo rest non_empty

/-- `Spine::reduced`: at most one non-empty layer and no merge in
progress. -/
def Spine.reduced {α : Type} (s : Spine α) : Bool :=
  Spine.reducedGo s.merging 0

/-- `Trace::insert` for the spine: asserts `batch.lower != batch.upper`
and `batch.lower == self.upper`, advances `self.upper`, pushes onto
`pending` and considers merges. -/
def Spine.insert {α : Type} [DecidableEq α] (le : α → α → Bool) (s : Spine α)
    (batch : RBatch α) : Panics (Spine α) :=
  if batch.lower = batch.upper then
    .error "assert failed: batch.lower() != batch.upper()"
  else if batch.lower ≠ s.upper then
    .error "assert failed: batch.lower() == self.upper"
  else
    Spine.consider_merges le {s with upper := batch.upper, pending := s.pending ++ [batch]}

/-- `Trace::close` for the spine: if `self.upper` is non-empty, insert
the batch `Builder::new().done(&self.upper, &[], &self.upper)`.
Modelled from the spec: `Builder::done(lower, upper, since)` (the batch
implementation is not among the sources) returns a batch with the given
bounds; an empty builder yields zero records. -/
def Spine.close {α : Type} [DecidableEq α] (le : α → α → Bool) (s : Spine α) :
    Panics (Spine α) :=
  if s.upper ≠ ([] : List α) then
    Spine.insert le s ⟨s.upper, [], 0⟩
  else .ok s

/-- `Trace::exert` for the spine: tidy, and unless reduced either fuel
the existing merges or introduce a virtual empty batch at the level
suggested by the effort. -/
def Spine.exert {α : Type} [DecidableEq α] (s : Spine α) (effort : Int) : Panics (Spine α) :=
  match Spine.tidy_layers s with
  | .error e => .error e
  | .ok s1 =>
      if !(Spine.reduced s1) then
        if s1.merging.any (fun m => m.is_double) then
          Spine.apply_fuel s1 effort
        else
          Spine.introduce_batch s1 none (batch_level effort.toNat)
      else .ok s1

/-- `TraceReader::advance_by` for the spine: record the frontier; an
empty frontier drops all batches. -/
def Spine.advance_by {α : Type} (s : Spine α) (frontier : List α) : Spine α :=
  let s1 : Spine α := {s with advance_frontier := frontier}
  if frontier.length = 0 then
    {s1 with pending := [], merging := []}
  else s1

/-- `TraceReader::distinguish_since` for the spine. -/
def Spine.distinguish_since {α : Type} [DecidableEq α] (le : α → α → Bool) (s : Spine α)
    (frontier : List α) : Panics (Spine α) :=
  Spine.consider_merges le {s with through_frontier := frontier}

/-- The non-empty batches of the merging layers in the order
`cursor_through` pushes their cursors (layers iterated in reverse). -/
def Spine.mergingBatches {α : Type} (s : Spine α) : List (RBatch α) :=
  s.merging.reverse.flatMap MergeState.batches

/-- The scan of `pending` inside `cursor_through`: an empty batch is
skipped; a non-empty batch panics when the supplied upper straddles it
(`include_lower != include_upper` and `upper != batch.lower`), and is
included exactly when `include_upper` holds. -/
def pendingScan {α : Type} [DecidableEq α] (le : α → α → Bool) (upper : List α) :
    List (RBatch α) → Panics (List (RBatch α))
  | [] => .ok []
  | b :: rest =>
      if b.len ≠ 0 then
        let include_lower := dominates le upper b.lower
        let include_upper := dominates le upper b.upper
        if include_lower ≠ include_upper ∧ upper ≠ b.lower then
          .error "cursor_through: upper straddles batch"
        else
          match pendingScan le upper rest with
          | .error e => .error e
          | .ok tail => .ok (if include_upper then b :: tail else tail)
      else pendingScan le upper rest

/-- The straddle condition of `cursor_through` on a pending batch. -/
def straddleTrigger {α : Type} (le : α → α → Bool) (upper : List α) (b : RBatch α) : Prop :=
  b.len ≠ 0 ∧ dominates le upper b.lower ≠ dominates le upper b.upper ∧ upper ≠ b.lower

/-- `TraceReader::cursor_through` for the spine: asserts the trace is
not closed and that `upper` is at or beyond the through frontier;
includes every non-empty batch of the merging layers, and each non-empty
pending batch whose upper is dominated by `upper` (panicking on a
straddle).  The result models the list of batches backing the returned
`CursorList`. -/
def Spine.cursor_through {α : Type} [DecidableEq α] (le : α → α → Bool) (s : Spine α)
    (upper : List α) : Panics (Option (List (RBatch α))) :=
  if s.advance_frontier.length = 0 then
    .error "assert failed: advance_frontier is empty"
  else if !(dominates le upper s.through_frontier) then
    .error "assert failed: upper is not beyond through_frontier"
  else
    match pendingScan le upper s.pending with
    | .error e => .error e
    | .ok included =>
        .ok (some ((Spine.mergingBatches s).filter (fun b => b.len != 0) ++ included))

/-- `Spine::with_effort` (the operator info, logger and activator carry
no state): fresh frontiers at the minimum, `upper` at the default. -/
def Spine.with_effort {α : Type} (effort : Nat) (minimum default : α) : Spine α :=
  { advance_frontier := [minimum]
    through_frontier := [minimum]
    merging := []
    pending := []
    upper := [default]
    effort := if effort = 0 then 1 else effort }

/-- Modelled from the spec: `propose_then(extensions, arrangement,
key_builder, output_fn)` (`dogsdogsdogs/src/operators/propose.rs` is not
among the sources).  For each extension `(d, r)` it builds a key, reads
the arrangement — modelled as the count function it carries at the query
time — and emits `(output_fn d (), r * count)` for the unit value,
dropping zero counts. -/
def propose_then {D KV D2 : Type} (extensions : List (D × Int)) (count : KV → Int)
    (key_builder : D → KV) (output_fn : D → Unit → D2) : List (D2 × Int) :=
  extensions.flatMap (fun pr =>
    if count (key_builder pr.1) = 0 then []
    else [(output_fn pr.1 (), pr.2 * count (key_builder pr.1))])

/-- `validate` of `dogsdogsdogs/src/operators/validate.rs`: delegate to
`propose_then` with the key builder `(key_selector(prefix), val)` and an
output map that strips the unit value. -/
def validate {P V K : Type} (key_selector : P → K) (extensions : List ((P × V) × Int))
    (count : (K × V) → Int) : List ((P × V) × Int) :=
  propose_then extensions count (fun pv => (key_selector pv.1, pv.2))
    (fun pv _ => (pv.1, pv.2))

/-- The specification of `validate` stated directly from the spec words:
for each extension `((p, v), r)` the output weight is `r * count` where
`count` is the existence count of `(key_fn(p), v)` in the arrangement;
pairs with zero count are dropped. -/
def validate_spec {P V K : Type} (key_selector : P → K) (extensions : List ((P × V) × Int))
    (count : (K × V) → Int) : List ((P × V) × Int) :=
  extensions.flatMap (fun x =>
    if count (key_selector x.1.1, x.1.2) = 0 then []
    else [((x.1.1, x.1.2), x.2 * count (key_selector x.1.1, x.1.2))])

/-- The `{alt, neu}` tag of the `AltNeu` timestamp refinement.  Modelled
from the spec (`dogsdogsdogs/src/altneu.rs` is not among the sources). -/
inductive Tag where
  | alt : Tag
  | neu : Tag
deriving DecidableEq, Repr

/-- Modelled from the spec: `AltNeu<T> = (T, {alt, neu})`. -/
structure AltNeu (T : Type) where
  time : T
  tag : Tag
deriving DecidableEq, Repr

/-- `AltNeu::alt(t)`. -/
def AltNeu.alt {T : Type} (t : T) : AltNeu T := ⟨t, Tag.alt⟩

/-- `AltNeu::neu(t)`. -/
def AltNeu.neu {T : Type} (t : T) : AltNeu T := ⟨t, Tag.neu⟩

/-- Modelled from the spec: the `AltNeu` order — `(t1,r1) ≤ (t2,r2)` iff
`t1 ≤ t2` and (if `t1 = t2`) `r1 = alt` or `r2 = neu` — at the totally
ordered outer timestamps of the triangles example. -/
def AltNeu.le (x y : AltNeu Nat) : Prop :=
  x.time ≤ y.time ∧ (x.time = y.time → x.tag = Tag.alt ∨ y.tag = Tag.neu)

instance altNeuLeDecidable (x y : AltNeu Nat) : Decidable (AltNeu.le x y) := by
  unfold AltNeu.le
  infer_instance

/-- The vertices touched by an edge set. -/
def verts (E : Finset (Nat × Nat)) : Finset Nat :=
  E.image Prod.fst ∪ E.image Prod.snd

/-- `(a, b, c)` is an instance of the triangle query
`Q(a,b,c) = E1(a,b) ∧ E2(b,c) ∧ E3(a,c)` with `E1 = E2 = E3 = E`. -/
def isInstance (E : Finset (Nat × Nat)) (a b c : Nat) : Prop :=
  (a, b) ∈ E ∧ (b, c) ∈ E ∧ (a, c) ∈ E

instance isInstanceDecidable (E : Finset (Nat × Nat)) (a b c : Nat) :
    Decidable (isInstance E a b c) := by
  unfold isInstance
  infer_instance

/-- All ordered instances of the triangle query over `E`. -/
def instTriples (E : Finset (Nat × Nat)) : Finset (Nat × Nat × Nat) :=
  ((verts E) ×ˢ (verts E) ×ˢ (verts E)).filter (fun x => isInstance E x.1 x.2.1 x.2.2)

/-- Modelled from the spec and `delta_query.rs`: the delta stream
`dQ/dE1 := dE1(a,b), E2(b,c), E3(a,c)` joins `E2` and `E3` entered at
`neu`, read at the driver's `alt` time; `τ` assigns each edge its
arrival time. -/
def delta1Cond (τ : Nat × Nat → Nat) (a b c : Nat) : Prop :=
  AltNeu.le (AltNeu.neu (τ (b, c))) (AltNeu.alt (τ (a, b))) ∧
  AltNeu.le (AltNeu.neu (τ (a, c))) (AltNeu.alt (τ (a, b)))

/-- `dQ/dE2 := dE2(b,c), E1(a,b), E3(a,c)`: `E1` entered at `alt`, `E3`
at `neu`, read at the driver's `alt` time. -/
def delta2Cond (τ : Nat × Nat → Nat) (a b c : Nat) : Prop :=
  AltNeu.le (AltNeu.alt (τ (a, b))) (AltNeu.alt (τ (b, c))) ∧
  AltNeu.le (AltNeu.neu (τ (a, c))) (AltNeu.alt (τ (b, c)))

/-- `dQ/dE3 := dE3(a,c), E1(a,b), E2(b,c)`: both entered at `alt`, read
at the driver's `alt` time. -/
def delta3Cond (τ : Nat × Nat → Nat) (a b c : Nat) : Prop :=
  AltNeu.le (AltNeu.alt (τ (a, b))) (AltNeu.alt (τ (a, c))) ∧
  AltNeu.le (AltNeu.alt (τ (b, c))) (AltNeu.alt (τ (a, c)))

instance delta1CondDecidable (τ : Nat × Nat → Nat) (a b c : Nat) :
    Decidable (delta1Cond τ a b c) := by
  unfold delta1Cond
  infer_instance

instance delta2CondDecidable (τ : Nat × Nat → Nat) (a b c : Nat) :
    Decidable (delta2Cond τ a b c) := by
  unfold delta2Cond
  infer_instance

instance delta3CondDecidable (τ : Nat × Nat → Nat) (a b c : Nat) :
    Decidable (delta3Cond τ a b c) := by
  unfold delta3Cond
  infer_instance

/-- The instances captured by the delta stream `dQ/dE1`. -/
def deltaStream1 (E : Finset (Nat × Nat)) (τ : Nat × Nat → Nat) : Finset (Nat × Nat × Nat) :=
  (instTriples E).filter (fun x => delta1Cond τ x.1 x.2.1 x.2.2)

/-- The instances captured by the delta stream `dQ/dE2`. -/
def deltaStream2 (E : Finset (Nat × Nat)) (τ : Nat × Nat → Nat) : Finset (Nat × Nat × Nat) :=
  (instTriples E).filter (fun x => delta2Cond τ x.1 x.2.1 x.2.2)

/-- The instances captured by the delta stream `dQ/dE3`. -/
def deltaStream3 (E : Finset (Nat × Nat)) (τ : Nat × Nat → Nat) : Finset (Nat × Nat × Nat) :=
  (instTriples E).filter (fun x => delta3Cond τ x.1 x.2.1 x.2.2)

/-- The total output of the three delta-query streams
`dQ/dE1 + dQ/dE2 + dQ/dE3`. -/
def deltaQuerySum (E : Finset (Nat × Nat)) (τ : Nat × Nat → Nat) : Nat :=
  (deltaStream1 E τ).card + (deltaStream2 E τ).card + (deltaStream3 E τ).card

/-- The number of triangles of the (symmetric) edge set `E`: instances
with increasing vertices, one per unordered triangle. -/
def triangleCount (E : Finset (Nat × Nat)) : Nat :=
  ((instTriples E).filter (fun x => x.1 < x.2.1 ∧ x.2.1 < x.2.2)).card

/-- The triangle `{1, 2, 3}`, stored in both directions. -/
def c8_edges : Finset (Nat × Nat) :=
  {(1, 2), (2, 1), (2, 3), (3, 2), (1, 3), (3, 1)}

/-- The state components of a `Spine` other than the merging layers,
bundled so that their preservation can be stated once. -/
def auxOf {α : Type} (s : Spine α) : List α × List α × List (RBatch α) × List α × Nat :=
  (s.advance_frontier, s.through_frontier, s.pending, s.upper, s.effort)

/-- The `less_equal` of the totally ordered `usize` timestamps. -/
def leN : Nat → Nat → Bool := Nat.ble

/-- A populated spine used for the frontier-empty-drop scenario. -/
def c2_state : Spine Nat :=
  ⟨[0], [0], [MergeState.Single (some ⟨[0], [1], 1⟩)], [⟨[1], [2], 1⟩], [2], 1⟩

/-- A freshly allocated spine (`Spine::with_effort(1, ..)` at `usize`). -/
def c4_state : Spine Nat := Spine.with_effort 1 0 0

/-- The spine obtained by inserting the batch `[0, 5)` into `c4_state`. -/
def c4_after : Spine Nat := ⟨[0], [0], [], [⟨[0], [5], 1⟩], [5], 1⟩

/-- A spine whose upper frontier is `[3]`, about to be closed. -/
def c5_state : Spine Nat := ⟨[0], [0], [], [], [3], 1⟩

/-- The spine obtained by closing `c5_state`. -/
def c5_after : Spine Nat := ⟨[0], [0], [], [⟨[3], [], 0⟩], [], 1⟩

/-- A reduced spine (one non-empty layer, no merges) that is not tidy:
the single batch sits above a vacant layer. -/
def c6_state : Spine Nat :=
  ⟨[0], [0], [MergeState.Vacant, MergeState.Single (some ⟨[0], [1], 1⟩)], [], [1], 1⟩

/-- `c6_state` after its vacant layer is absorbed by `tidy_layers`. -/
def c6_tidied : Spine Nat :=
  ⟨[0], [0], [MergeState.Single (some ⟨[0], [1], 1⟩)], [], [1], 1⟩

/-- The first batch `[0, 1)` of the level-0 merge scenario. -/
def c7_b0 : RBatch Nat := ⟨[0], [1], 1⟩

/-- The second batch `[1, 2)` of the level-0 merge scenario. -/
def c7_b1 : RBatch Nat := ⟨[1], [2], 1⟩

/-- A spine holding `c7_b0` in a `Single` slot at level 0, with the
through frontier far enough advanced to admit new batches. -/
def c7_state : Spine Nat := ⟨[0], [5], [MergeState.Single (some c7_b0)], [], [1], 1⟩

/-- `c7_state` after inserting `c7_b1`: level 0 is a merge in progress. -/
def c7_after : Spine Nat :=
  ⟨[0], [5], [MergeState.Double (MergeVariant.InProgress c7_b0 c7_b1 (some [0]) ⟨2⟩)], [], [2], 1⟩

/-- A spine whose level-0 slot is an (already complete) `Double`. -/
def c7_double_state : Spine Nat :=
  ⟨[0], [0], [MergeState.Double (MergeVariant.Complete none)], [], [0], 1⟩

/-- A spine with one merging batch and one pending batch, both admitted
consistently with the through frontier `[3]`. -/
def c3_state : Spine Nat :=
  ⟨[0], [3], [MergeState.Single (some ⟨[0], [1], 1⟩)], [⟨[1], [2], 1⟩], [2], 1⟩

/-- The batches enumerable by `cursor_through(c3_state, [3])`. -/
def c3_list : List (RBatch Nat) := [⟨[0], [1], 1⟩, ⟨[1], [2], 1⟩]

/-- A spine used to exercise the `Some` result of `cursor_through`. -/
def c10_state : Spine Nat :=
  ⟨[0], [3], [MergeState.Single (some ⟨[0], [1], 1⟩)], [⟨[1], [2], 1⟩], [2], 1⟩

/-- The batches enumerable by `cursor_through(c10_state, [3])`. -/
def c10_list : List (RBatch Nat) := [⟨[0], [1], 1⟩, ⟨[1], [2], 1⟩]

theorem foldl_meet_join_lower {α : Type} (L : LatticeOps α)
    (hmglb : ∀ a b c, L.less_equal c a → L.less_equal c b → L.less_equal c (L.meet a b))
    (t x : α) (l : List α) (acc : α)
    (hacc : L.less_equal x acc) (hall : ∀ f ∈ l, L.less_equal x (L.join t f)) :
    L.less_equal x (l.foldl (fun r f2 => L.meet r (L.join t f2)) acc) := by
  induction l generalizing acc with
  | nil => exact hacc
  | cons f l ih =>
      exact ih (L.meet acc (L.join t f))
        (hmglb _ _ _ hacc (hall f (List.mem_cons_self f l)))
        (fun g hg => hall g (List.mem_cons_of_mem f hg))

theorem foldl_meet_join_upper {α : Type} (L : LatticeOps α)
    (hrefl : ∀ a, L.less_equal a a)
    (htrans : ∀ a b c, L.less_equal a b → L.less_equal b c → L.less_equal a c)
    (hml : ∀ a b, L.less_equal (L.meet a b) a)
    (hmr : ∀ a b, L.less_equal (L.meet a b) b)
    (t : α) (l : List α) (acc : α) :
    L.less_equal (l.foldl (fun r f2 => L.meet r (L.join t f2)) acc) acc ∧
      ∀ f ∈ l, L.less_equal (l.foldl (fun r f2 => L.meet r (L.join t f2)) acc) (L.join t f) := by
  induction l generalizing acc with
  | nil => exact ⟨hrefl acc, fun f hf => absurd hf (List.not_mem_nil f)⟩
  | cons f l ih =>
      obtain ⟨h1, h2⟩ := ih (L.meet acc (L.join t f))
      refine ⟨htrans _ _ _ h1 (hml _ _), ?_⟩
      intro g hg
      rcases List.mem_cons.mp hg with h | h
      · subst h; exact htrans _ _ _ h1 (hmr _ _)
      · exact h2 g h

/-- C1: for every time `t` and non-empty frontier `F`, `advance_by(t, F)`
is the unique largest `t' ≥ t` such that for every `q` in the upward
closure of `F`, `t ≤ q ↔ t' ≤ q`; for the empty frontier it returns the
lattice maximum.  Stated over any structure satisfying the lattice laws. -/
theorem advance_by_largest_indistinguishable {α : Type} (L : LatticeOps α)
    (hrefl : ∀ a, L.less_equal a a)
    (htrans : ∀ a b c, L.less_equal a b → L.less_equal b c → L.less_equal a c)
    (hanti : ∀ a b, L.less_equal a b → L.less_equal b a → a = b)
    (hjl : ∀ a b, L.less_equal a (L.join a b))
    (hjr : ∀ a b, L.less_equal b (L.join a b))
    (hjlub : ∀ a b c, L.less_equal a c → L.less_equal b c → L.less_equal (L.join a b) c)
    (hml : ∀ a b, L.less_equal (L.meet a b) a)
    (hmr : ∀ a b, L.less_equal (L.meet a b) b)
    (hmglb : ∀ a b c, L.less_equal c a → L.less_equal c b → L.less_equal c (L.meet a b))
    (t : α) (F : List α) :
    L.advance_by t [] = L.maximum ∧
    (F ≠ [] →
      L.less_equal t (L.advance_by t F) ∧
      (∀ q, (∃ f ∈ F, L.less_equal f q) →
        (L.less_equal t q ↔ L.less_equal (L.advance_by t F) q)) ∧
      (∀ s, L.less_equal t s →
        (∀ q, (∃ f ∈ F, L.less_equal f q) → (L.less_equal t q ↔ L.less_equal s q)) →
        L.less_equal s (L.advance_by t F)) ∧
      (∀ r, L.less_equal t r →
        (∀ q, (∃ f ∈ F, L.less_equal f q) → (L.less_equal t q ↔ L.less_equal r q)) →
        (∀ s, L.less_equal t s →
          (∀ q, (∃ f ∈ F, L.less_equal f q) → (L.less_equal t q ↔ L.less_equal s q)) →
          L.less_equal s r) →
        r = L.advance_by t F)) := by
  refine ⟨rfl, fun hF => ?_⟩
  obtain ⟨f0, rest, rfl⟩ : ∃ f0 rest, F = f0 :: rest := by
    cases F with
    | nil => exact absurd rfl hF
    | cons a l => exact ⟨a, l, rfl⟩
  have hunfold : L.advance_by t (f0 :: rest) =
      rest.foldl (fun r f2 => L.meet r (L.join t f2)) (L.join t f0) := rfl
  -- t ≤ result
  have hge : L.less_equal t (L.advance_by t (f0 :: rest)) := by
    rw [hunfold]
    exact foldl_meet_join_lower L hmglb t t rest (L.join t f0) (hjl t f0)
      (fun f _ => hjl t f)
  -- result ≤ join t f for every f in the frontier
  have hub : ∀ f ∈ f0 :: rest, L.less_equal (L.advance_by t (f0 :: rest)) (L.join t f) := by
    intro f hf
    rw [hunfold]
    obtain ⟨h1, h2⟩ := foldl_meet_join_upper L hrefl htrans hml hmr t rest (L.join t f0)
    rcases List.mem_cons.mp hf with h | h
    · subst h; exact h1
    · exact h2 f h
  -- the indistinguishability property of the result
  have hprop : ∀ q, (∃ f ∈ f0 :: rest, L.less_equal f q) →
      (L.less_equal t q ↔ L.less_equal (L.advance_by t (f0 :: rest)) q) := by
    intro q ⟨f, hf, hfq⟩
    constructor
    · intro htq
      exact htrans _ _ _ (hub f hf) (hjlub t f q htq hfq)
    · intro hrq
      exact htrans _ _ _ hge hrq
  -- the result is the largest element with the property
  have hmax : ∀ s, L.less_equal t s →
      (∀ q, (∃ f ∈ f0 :: rest, L.less_equal f q) → (L.less_equal t q ↔ L.less_equal s q)) →
      L.less_equal s (L.advance_by t (f0 :: rest)) := by
    intro s hts hsprop
    have hsf : ∀ f ∈ f0 :: rest, L.less_equal s (L.join t f) := by
      intro f hf
      exact (hsprop (L.join t f) ⟨f, hf, hjr t f⟩).mp (hjl t f)
    rw [hunfold]
    exact foldl_meet_join_lower L hmglb t s rest (L.join t f0)
      (hsf f0 (List.mem_cons_self f0 rest)) (fun f hf => hsf f (List.mem_cons_of_mem f0 hf))
  refine ⟨hge, hprop, hmax, ?_⟩
  intro r htr hrprop hrmax
  exact hanti _ _ (hmax r htr hrprop) (hrmax _ hge hprop)

/-- C1 witness: the theorem applied at the `usize` lattice with `t = 3`
and `F = [2, 5]`, discharging every lattice-law hypothesis. -/
theorem advance_by_largest_indistinguishable_witness :
    natLattice.less_equal 3 (natLattice.advance_by 3 [2, 5]) ∧
      (natLattice.less_equal 3 7 ↔ natLattice.less_equal (natLattice.advance_by 3 [2, 5]) 7) := by
  have h := advance_by_largest_indistinguishable natLattice
    (fun a => Nat.le_refl a)
    (fun a b c h1 h2 => Nat.le_trans h1 h2)
    (fun a b h1 h2 => Nat.le_antisymm h1 h2)
    (fun a b => Nat.le_max_left a b)
    (fun a b => Nat.le_max_right a b)
    (fun a b c h1 h2 => max_le h1 h2)
    (fun a b => Nat.min_le_left a b)
    (fun a b => Nat.min_le_right a b)
    (fun a b c h1 h2 => le_min h1 h2)
    3 [2, 5]
  obtain ⟨-, h2⟩ := h
  obtain ⟨hge, hprop, -, -⟩ := h2 (by simp)
  exact ⟨hge, hprop 7 ⟨5, by simp, by norm_num [natLattice]⟩⟩

theorem getD_replicate {β : Type} (c : β) : ∀ (m j : Nat), (List.replicate m c).getD j c = c := by
  intro m
  induction m with
  | zero => intro j; cases j <;> rfl
  | succ m ih =>
      intro j
      cases j with
      | zero => rfl
      | succ j => exact ih j

theorem getD_append_replicate {β : Type} (c : β) :
    ∀ (l : List β) (m j : Nat), (l ++ List.replicate m c).getD j c = l.getD j c := by
  intro l
  induction l with
  | nil =>
      intro m j
      have h1 := getD_replicate c m j
      have h2 := getD_replicate c 0 j
      simp only [List.nil_append]
      exact h1.trans h2.symm
  | cons a l ih =>
      intro m j
      cases j with
      | zero => rfl
      | succ j => exact ih m j

theorem getD_padVacant {α : Type} (l : List (MergeState α)) (n j : Nat) :
    (padVacant l n).getD j MergeState.Vacant = l.getD j MergeState.Vacant :=
  getD_append_replicate _ l _ j

theorem getD_set_self {β : Type} :
    ∀ (l : List β) (i : Nat) (x d : β), i < l.length → (l.set i x).getD i d = x := by
  intro l
  induction l with
  | nil => intro i x d h; simp at h
  | cons a l ih =>
      intro i x d h
      cases i with
      | zero => rfl
      | succ i => exact ih i x d (by simp only [List.length_cons] at h; omega)

theorem getD_set_ne {β : Type} :
    ∀ (l : List β) (i j : Nat) (x d : β), i ≠ j → (l.set i x).getD j d = l.getD j d := by
  intro l
  induction l with
  | nil => intro i j x d _; cases i <;> rfl
  | cons a l ih =>
      intro i j x d h
      cases i with
      | zero =>
          cases j with
          | zero => exact absurd rfl h
          | succ j => rfl
      | succ i =>
          cases j with
          | zero => rfl
          | succ j => exact ih i j x d (fun hh => h (by rw [hh]))

theorem getD_set_vacant {α : Type} (l : List (MergeState α)) (i : Nat) :
    (l.set i MergeState.Vacant).getD i MergeState.Vacant = MergeState.Vacant := by
  by_cases h : i < l.length
  · exact getD_set_self l i _ _ h
  · exact List.getD_eq_default _ _ (by rw [List.length_set]; omega)

theorem insert_at_aux {α : Type} [DecidableEq α] (s : Spine α) (b : Option (RBatch α))
    (idx : Nat) (s' : Spine α) (h : Spine.insert_at s b idx = .ok s') :
    auxOf s' = auxOf s := by
  unfold Spine.insert_at at h
  dsimp only at h
  split at h
  · cases h; rfl
  · split at h
    · exact absurd h (by simp)
    · cases h; rfl
  · exact absurd h (by simp)

theorem complete_at_aux {α : Type} (s : Spine α) (idx : Nat) (m : Option (RBatch α))
    (s' : Spine α) (h : Spine.complete_at s idx = .ok (m, s')) :
    auxOf s' = auxOf s := by
  unfold Spine.complete_at at h
  split at h
  · exact absurd h (by simp)
  · cases h; rfl

theorem complete_at_merging {α : Type} (s : Spine α) (idx : Nat) (m : Option (RBatch α))
    (s' : Spine α) (h : Spine.complete_at s idx = .ok (m, s')) :
    s'.merging = s.merging.set idx MergeState.Vacant := by
  unfold Spine.complete_at at h
  split at h
  · exact absurd h (by simp)
  · cases h; rfl

theorem rollLoop_aux {α : Type} [DecidableEq α] :
    ∀ (rem i : Nat) (merged : Option (RBatch α)) (s : Spine α) (m' : Option (RBatch α))
      (s' : Spine α), Spine.rollLoop rem i merged s = .ok (m', s') → auxOf s' = auxOf s := by
  intro rem
  induction rem with
  | zero => intro i merged s m' s' h; cases h; rfl
  | succ rem ih =>
      intro i merged s m' s' h
      unfold Spine.rollLoop at h
      split at h
      · exact absurd h (by simp)
      · rename_i s1 h1
        split at h
        · exact absurd h (by simp)
        · rename_i m2 s2 h2
          exact (ih _ _ _ _ _ h).trans ((complete_at_aux _ _ _ _ h2).trans (insert_at_aux _ _ _ _ h1))

theorem roll_up_aux {α : Type} [DecidableEq α] (s : Spine α) (idx : Nat) (s' : Spine α)
    (h : Spine.roll_up s idx = .ok s') : auxOf s' = auxOf s := by
  unfold Spine.roll_up at h
  dsimp only at h
  split at h
  · split at h
    · exact absurd h (by simp)
    · rename_i merged s1 h1
      split at h
      · exact absurd h (by simp)
      · rename_i s2 h2
        split at h
        · split at h
          · exact absurd h (by simp)
          · rename_i m2 s3 h3
            exact (insert_at_aux _ _ _ _ h).trans
              ((complete_at_aux _ _ _ _ h3).trans
                ((insert_at_aux _ _ _ _ h2).trans ((rollLoop_aux _ _ _ _ _ _ h1).trans rfl)))
        · cases h
          exact (insert_at_aux _ _ _ _ h2).trans ((rollLoop_aux _ _ _ _ _ _ h1).trans rfl)
  · cases h; rfl

theorem apply_fuelGo_aux {α : Type} [DecidableEq α] (fuel : Int) :
    ∀ (rem idx : Nat) (s s' : Spine α),
      Spine.apply_fuelGo fuel idx rem s = .ok s' → auxOf s' = auxOf s := by
  intro rem
  induction rem with
  | zero => intro idx s s' h; cases h; rfl
  | succ rem ih =>
      intro idx s s' h
      unfold Spine.apply_fuelGo at h
      dsimp only at h
      split at h
      · split at h
        · exact absurd h (by simp)
        · rename_i complete s2 h2
          split at h
          · exact absurd h (by simp)
          · rename_i s3 h3
            exact (ih _ _ _ h).trans ((insert_at_aux _ _ _ _ h3).trans
              ((complete_at_aux _ _ _ _ h2).trans rfl))
      · exact (ih _ _ _ h).trans rfl

theorem apply_fuel_aux {α : Type} [DecidableEq α] (s : Spine α) (fuel : Int) (s' : Spine α)
    (h : Spine.apply_fuel s fuel = .ok s') : auxOf s' = auxOf s :=
  apply_fuelGo_aux fuel _ _ _ _ h

theorem tidyLoop_aux {α : Type} [DecidableEq α] :
    ∀ (fuel lvl : Nat) (s s' : Spine α),
      Spine.tidyLoop fuel lvl s = .ok s' → auxOf s' = auxOf s := by
  intro fuel
  induction fuel with
  | zero => intro lvl s s' h; cases h; rfl
  | succ fuel ih =>
      intro lvl s s' h
      unfold Spine.tidyLoop at h
      dsimp only at h
      split at h
      · split at h
        · exact (ih _ _ _ h).trans rfl
        · exact (ih _ _ _ h).trans rfl
        · split at h
          · exact (insert_at_aux _ _ _ _ h).trans rfl
          · cases h; rfl
        · cases h; rfl
      · cases h; rfl

theorem tidy_layers_aux {α : Type} [DecidableEq α] (s s' : Spine α)
    (h : Spine.tidy_layers s = .ok s') : auxOf s' = auxOf s := by
  unfold Spine.tidy_layers at h
  dsimp only at h
  split at h
  · cases h; rfl
  · split at h
    · exact tidyLoop_aux _ _ _ _ h
    · cases h; rfl

theorem introduce_batch_aux {α : Type} [DecidableEq α] (s : Spine α) (b : Option (RBatch α))
    (idx : Nat) (s' : Spine α) (h : Spine.introduce_batch s b idx = .ok s') :
    auxOf s' = auxOf s := by
  unfold Spine.introduce_batch at h
  dsimp only at h
  split at h
  · exact absurd h (by simp)
  · rename_i s1 h1
    split at h
    · exact absurd h (by simp)
    · rename_i s2 h2
      split at h
      · exact absurd h (by simp)
      · rename_i s3 h3
        exact (tidy_layers_aux _ _ h).trans ((insert_at_aux _ _ _ _ h3).trans
          ((roll_up_aux _ _ _ h2).trans (apply_fuel_aux _ _ _ h1)))

theorem auxOf_through {α : Type} (s s' : Spine α) (h : auxOf s' = auxOf s) :
    s'.through_frontier = s.through_frontier := congrArg (fun t => t.2.1) h

theorem auxOf_pending {α : Type} (s s' : Spine α) (h : auxOf s' = auxOf s) :
    s'.pending = s.pending := congrArg (fun t => t.2.2.1) h

theorem auxOf_upper {α : Type} (s s' : Spine α) (h : auxOf s' = auxOf s) :
    s'.upper = s.upper := congrArg (fun t => t.2.2.2.1) h

theorem considerLoop_spec {α : Type} [DecidableEq α] (le : α → α → Bool) :
    ∀ (fuel : Nat) (s s' : Spine α), Spine.considerLoop le fuel s = .ok s' →
      s'.through_frontier = s.through_frontier ∧ s'.upper = s.upper ∧
      ∃ dropped, dropped ++ s'.pending = s.pending ∧
        ∀ b ∈ dropped, dominates le s.through_frontier b.upper = true := by
  intro fuel
  induction fuel with
  | zero =>
      intro s s' h; cases h
      exact ⟨rfl, rfl, [], rfl, by intro b hb; exact absurd hb (List.not_mem_nil b)⟩
  | succ fuel ih =>
      intro s s' h
      unfold Spine.considerLoop at h
      split at h
      · cases h
        exact ⟨rfl, rfl, [], rfl, by intro b hb; exact absurd hb (List.not_mem_nil b)⟩
      · rename_i b rest hpend
        split at h
        · rename_i hdom
          split at h
          · exact absurd h (by simp)
          · rename_i s1 h1
            have haux := introduce_batch_aux _ _ _ _ h1
            obtain ⟨hth, hup, dropped, hdrop, hdall⟩ := ih s1 s' h
            have h1p := auxOf_pending _ _ haux
            have h1t := auxOf_through _ _ haux
            have h1u := auxOf_upper _ _ haux
            refine ⟨hth.trans h1t, hup.trans h1u, b :: dropped, ?_, ?_⟩
            · rw [hpend, List.cons_append, hdrop, h1p]
            · intro x hx
              rcases List.mem_cons.mp hx with hx | hx
              · subst hx; exact hdom
              · have := hdall x hx; rwa [h1t] at this
        · cases h
          exact ⟨rfl, rfl, [], rfl, by intro x hx; exact absurd hx (List.not_mem_nil x)⟩

theorem insert_spec {α : Type} [DecidableEq α] (le : α → α → Bool) (s : Spine α)
    (batch : RBatch α) (s' : Spine α) (h : Spine.insert le s batch = .ok s') :
    s'.upper = batch.upper ∧ s'.through_frontier = s.through_frontier ∧
      ∃ dropped, dropped ++ s'.pending = s.pending ++ [batch] ∧
        ∀ b ∈ dropped, dominates le s.through_frontier b.upper = true := by
  unfold Spine.insert at h
  split at h
  · exact absurd h (by simp)
  · split at h
    · exact absurd h (by simp)
    · obtain ⟨hth, hup, dropped, hdrop, hdall⟩ := considerLoop_spec le _ _ _ h
      exact ⟨hup, hth, dropped, hdrop, hdall⟩

/-- C2 (amended): `advance_by([])` drops every batch (both the merging
layers and the pending queue become empty) and leaves the advance
frontier empty, and `cursor_through` on any spine whose advance frontier
is empty panics on the closed-trace assertion instead of returning a
cursor. -/
theorem advance_by_empty_drops_all {α : Type} [DecidableEq α] (le : α → α → Bool)
    (s : Spine α) (u : List α) :
    (Spine.advance_by s []).merging = [] ∧ (Spine.advance_by s []).pending = [] ∧
    (Spine.advance_by s []).advance_frontier = [] ∧
    ∀ s' : Spine α, s'.advance_frontier = [] →
      Spine.cursor_through le s' u = .error "assert failed: advance_frontier is empty" := by
  refine ⟨rfl, rfl, rfl, ?_⟩
  intro s' h
  unfold Spine.cursor_through
  rw [h]
  rfl

/-- C2 counterexample: on a concrete populated spine, `advance_by([])`
followed by `cursor_through` panics (it does not return a cursor that
enumerates nothing, as the claim states). -/
theorem advance_by_empty_then_cursor_panics :
    Spine.cursor_through leN (Spine.advance_by c2_state []) [5] =
      .error "assert failed: advance_frontier is empty" ∧
    (Spine.advance_by c2_state []).merging = [] ∧
    (Spine.advance_by c2_state []).pending = [] :=
  ⟨rfl, rfl, rfl⟩

/-- C2 witness: the amended theorem applied to the concrete spine
`c2_state`, discharging the empty-advance-frontier hypothesis. -/
theorem advance_by_empty_drops_all_witness :
    Spine.cursor_through leN (Spine.advance_by c2_state []) [5] =
      .error "assert failed: advance_frontier is empty" :=
  (advance_by_empty_drops_all leN c2_state [5]).2.2.2 (Spine.advance_by c2_state []) rfl

/-- C4: `insert(batch)` panics when `batch.lower` differs from the
spine's current upper frontier; on success the spine's upper becomes
`batch.upper` and the batch is appended to `pending`, from which batches
transition into the layer structure only once the through (distinguish)
frontier dominates their upper — in particular the inserted batch is
still pending whenever its upper is not dominated. -/
theorem insert_contiguous_and_pending {α : Type} [DecidableEq α] (le : α → α → Bool)
    (s : Spine α) (batch : RBatch α) :
    (batch.lower ≠ s.upper → ∃ msg, Spine.insert le s batch = .error msg) ∧
    (∀ s', Spine.insert le s batch = .ok s' →
      s'.upper = batch.upper ∧
      (∃ dropped, dropped ++ s'.pending = s.pending ++ [batch] ∧
        ∀ b ∈ dropped, dominates le s.through_frontier b.upper = true) ∧
      (dominates le s.through_frontier batch.upper = false → batch ∈ s'.pending)) := by
  constructor
  · intro hne
    unfold Spine.insert
    split
    · exact ⟨_, rfl⟩
    · exact ⟨_, rfl⟩
  · intro s' h
    obtain ⟨hup, hth, dropped, hdrop, hdall⟩ := insert_spec le s batch s' h
    refine ⟨hup, ⟨dropped, hdrop, hdall⟩, ?_⟩
    intro hnd
    have hmem : batch ∈ dropped ++ s'.pending := by
      rw [hdrop]; exact List.mem_append_right _ (List.mem_singleton.mpr rfl)
    rcases List.mem_append.mp hmem with hmem | hmem
    · exact absurd (hdall batch hmem) (by rw [hnd]; exact Bool.false_ne_true)
    · exact hmem

/-- C4 witness: inserting a non-contiguous batch into a fresh spine
panics, and inserting the contiguous batch `[0, 5)` succeeds, sets the
upper frontier to `[5]`, and leaves the batch pending because the
through frontier `[0]` does not dominate `[5]`. -/
theorem insert_contiguous_and_pending_witness :
    (∃ msg, Spine.insert leN c4_state ⟨[1], [5], 1⟩ = .error msg) ∧
    (c4_after.upper = [5] ∧ (⟨[0], [5], 1⟩ : RBatch Nat) ∈ c4_after.pending) := by
  refine ⟨(insert_contiguous_and_pending leN c4_state ⟨[1], [5], 1⟩).1 (by decide), ?_⟩
  have h := (insert_contiguous_and_pending leN c4_state ⟨[0], [5], 1⟩).2 c4_after rfl
  exact ⟨h.1, h.2.2 (by decide)⟩

/-- C10: `cursor_through` never returns `None`: whenever the call does
not panic, the result is `Some` cursor. -/
theorem cursor_through_never_none {α : Type} [DecidableEq α] (le : α → α → Bool)
    (s : Spine α) (upper : List α) (r : Option (List (RBatch α)))
    (h : Spine.cursor_through le s upper = .ok r) : ∃ c, r = some c := by
  unfold Spine.cursor_through at h
  split at h
  · exact absurd h (by simp)
  · split at h
    · exact absurd h (by simp)
    · split at h
      · exact absurd h (by simp)
      · rename_i included hinc
        cases h
        exact ⟨_, rfl⟩

/-- C10 witness: the theorem applied to a concrete call that succeeds. -/
theorem cursor_through_never_none_witness :
    ∃ c, (some c10_list : Option (List (RBatch Nat))) = some c :=
  cursor_through_never_none leN c10_state [3] (some c10_list) rfl

/-- C5 (amended): when the spine's upper frontier is non-empty, `close()`
inserts a final empty batch whose lower frontier is `self.upper` and
whose upper frontier is the empty frontier (sealing the trace: the
spine's upper becomes empty, so a second `close()` does nothing); when
`self.upper` is already empty, `close()` is a no-op. -/
theorem close_seals_with_empty_upper {α : Type} [DecidableEq α] (le : α → α → Bool)
    (s : Spine α) :
    (s.upper = [] → Spine.close le s = .ok s) ∧
    (s.upper ≠ [] → Spine.close le s = Spine.insert le s ⟨s.upper, [], 0⟩) ∧
    (∀ s', Spine.close le s = .ok s' → s'.upper = []) := by
  refine ⟨?_, ?_, ?_⟩
  · intro h
    unfold Spine.close
    rw [if_neg (by simp [h])]
  · intro h
    unfold Spine.close
    rw [if_pos h]
  · intro s' h
    unfold Spine.close at h
    split at h
    · exact (insert_spec le _ _ _ h).1
    · rename_i hup
      cases h
      simpa using hup

/-- C5 counterexample: closing a concrete spine whose upper frontier is
`[3]` inserts the batch with `lower = [3]` but `upper = []` — the final
batch's upper frontier is the empty frontier, not `self.upper` as the
claim states. -/
theorem close_counterexample :
    Spine.close leN c5_state = .ok c5_after ∧
    c5_after.pending = [⟨[3], [], 0⟩] ∧
    c5_state.upper = [3] ∧
    (⟨[3], [], 0⟩ : RBatch Nat).upper ≠ (⟨[3], [], 0⟩ : RBatch Nat).lower :=
  ⟨rfl, rfl, rfl, by decide⟩

/-- C5 witness: the amended theorem applied to `c5_state`, discharging
the non-empty-upper hypothesis and the success-case hypothesis. -/
theorem close_seals_with_empty_upper_witness :
    Spine.close leN c5_state = Spine.insert leN c5_state ⟨[3], [], 0⟩ ∧
      c5_after.upper = [] := by
  refine ⟨?_, (close_seals_with_empty_upper leN c5_state).2.2 c5_after rfl⟩
  exact (close_seals_with_empty_upper leN c5_state).2.1 (by decide)

/-- C6 (amended): `exert` first runs `tidy_layers`; if the tidied spine
is reduced (at most one non-empty layer, no in-progress merge) nothing
further happens — in particular `exert` is a no-op whenever the spine is
reduced and already tidy — otherwise it applies fuel to existing merges
or introduces a virtual empty batch at the level suggested by the
effort. -/
theorem exert_reduced_only_tidies {α : Type} [DecidableEq α] (s : Spine α) (e : Int) :
    (∀ s1, Spine.tidy_layers s = .ok s1 → Spine.reduced s1 = true →
      Spine.exert s e = .ok s1) ∧
    (∀ s1, Spine.tidy_layers s = .ok s1 → Spine.reduced s1 = false →
      Spine.exert s e =
        (if s1.merging.any (fun m => m.is_double) then Spine.apply_fuel s1 e
         else Spine.introduce_batch s1 none (batch_level e.toNat))) := by
  constructor
  · intro s1 ht hr
    unfold Spine.exert
    rw [ht]
    simp [hr]
  · intro s1 ht hr
    unfold Spine.exert
    rw [ht]
    simp [hr]

/-- C6 counterexample: a concrete reduced spine (no merge in progress,
one non-empty layer above a vacant one) on which `exert` is not a no-op:
`tidy_layers` removes the vacant layer, so the state changes. -/
theorem exert_reduced_not_noop :
    Spine.reduced c6_state = true ∧
    Spine.exert c6_state 4 = .ok c6_tidied ∧
    c6_tidied ≠ c6_state :=
  ⟨rfl, rfl, by decide⟩

/-- C6 witness: on a reduced and already-tidy spine, `exert` is a no-op,
by the amended theorem with its hypotheses discharged. -/
theorem exert_reduced_only_tidies_witness :
    Spine.exert c6_tidied 4 = .ok c6_tidied :=
  (exert_reduced_only_tidies c6_tidied 4).1 c6_tidied rfl rfl

theorem nptGo_spec : ∀ (fuel n : Nat), 1 ≤ n → n ≤ fuel →
    ∃ k, nptGo fuel n = 2 ^ k ∧ n ≤ 2 ^ k ∧ ∀ m, n ≤ 2 ^ m → k ≤ m := by
  intro fuel
  induction fuel with
  | zero => intro n h1 h2; omega
  | succ fuel ih =>
      intro n h1 h2
      by_cases hn : n ≤ 1
      · refine ⟨0, ?_, by omega, fun m _ => Nat.zero_le m⟩
        unfold nptGo
        rw [if_pos hn]
        norm_num
      · obtain ⟨k, hk1, hk2, hk3⟩ := ih ((n + 1) / 2) (by omega) (by omega)
        have hpow : 2 ^ (k + 1) = 2 * 2 ^ k := by ring
        refine ⟨k + 1, ?_, by omega, ?_⟩
        · unfold nptGo
          rw [if_neg hn, hk1, hpow]
        · intro m hm
          cases m with
          | zero => simp at hm; omega
          | succ m =>
              have hp2 : 2 ^ (m + 1) = 2 * 2 ^ m := by ring
              have := hk3 m (by omega)
              omega

theorem tzGo_stable : ∀ (f1 f2 n : Nat), 1 ≤ n → n ≤ f1 → n ≤ f2 → tzGo f1 n = tzGo f2 n := by
  intro f1
  induction f1 with
  | zero => intro f2 n h1 h2 _; omega
  | succ f1 ih =>
      intro f2 n h1 h2 h3
      obtain ⟨n', rfl⟩ : ∃ n', n = n' + 1 := ⟨n - 1, by omega⟩
      obtain ⟨f2', rfl⟩ : ∃ f2', f2 = f2' + 1 := ⟨f2 - 1, by omega⟩
      unfold tzGo
      by_cases hodd : (n' + 1) % 2 = 1
      · rw [if_pos hodd, if_pos hodd]
      · rw [if_neg hodd, if_neg hodd]
        congr 1
        exact ih f2' ((n' + 1) / 2) (by omega) (by omega) (by omega)

theorem trailing_zeros_pow (k : Nat) : trailing_zeros (2 ^ k) = k := by
  induction k with
  | zero => rfl
  | succ k ih =>
      have h2 : 2 ^ (k + 1) = 2 * 2 ^ k := by ring
      have hpos : 1 ≤ 2 ^ k := Nat.one_le_two_pow
      have hX : 2 ^ (k + 1) = (2 ^ (k + 1) - 1) + 1 := by omega
      unfold trailing_zeros
      rw [hX]
      have hstep : tzGo (2 ^ (k + 1) - 1 + 1) (2 ^ (k + 1) - 1 + 1) =
          if (2 ^ (k + 1) - 1 + 1) % 2 = 1 then 0
          else tzGo (2 ^ (k + 1) - 1) ((2 ^ (k + 1) - 1 + 1) / 2) + 1 := rfl
      rw [hstep, if_neg (by omega)]
      have hhalf : (2 ^ (k + 1) - 1 + 1) / 2 = 2 ^ k := by omega
      rw [hhalf, tzGo_stable (2 ^ (k + 1) - 1) (2 ^ k) (2 ^ k) hpos (by omega) (le_refl _)]
      rw [← trailing_zeros, ih]

theorem batch_level_spec (n : Nat) (h : 1 ≤ n) :
    n ≤ 2 ^ batch_level n ∧ ∀ m, n ≤ 2 ^ m → batch_level n ≤ m := by
  obtain ⟨k, hk1, hk2, hk3⟩ := nptGo_spec n n h (le_refl n)
  unfold batch_level next_power_of_two
  rw [hk1, trailing_zeros_pow]
  exact ⟨hk2, hk3⟩

theorem padVacant_le_length {α : Type} (l : List (MergeState α)) (n : Nat) :
    n ≤ (padVacant l n).length := by
  unfold padVacant
  rw [List.length_append, List.length_replicate]
  omega

theorem begin_merge_double {α : Type} [DecidableEq α] (b1 b2 : Option (RBatch α))
    (f : Option (List α)) (st : MergeState α) (h : MergeState.begin_merge b1 b2 f = .ok st) :
    ∃ v, st = .Double v := by
  unfold MergeState.begin_merge at h
  split at h
  · split at h
    · cases h; exact ⟨_, rfl⟩
    · exact absurd h (by simp)
  · cases h; exact ⟨_, rfl⟩
  · cases h; exact ⟨_, rfl⟩
  · cases h; exact ⟨_, rfl⟩

theorem insert_at_getD_ne {α : Type} [DecidableEq α] (s : Spine α) (b : Option (RBatch α))
    (idx : Nat) (s' : Spine α) (h : Spine.insert_at s b idx = .ok s') (j : Nat) (hj : j ≠ idx) :
    s'.merging.getD j MergeState.Vacant = s.merging.getD j MergeState.Vacant := by
  unfold Spine.insert_at at h
  dsimp only at h
  split at h
  · cases h
    exact (getD_set_ne _ _ _ _ _ (Ne.symm hj)).trans (getD_padVacant _ _ _)
  · split at h
    · exact absurd h (by simp)
    · cases h
      exact (getD_set_ne _ _ _ _ _ (Ne.symm hj)).trans (getD_padVacant _ _ _)
  · exact absurd h (by simp)

theorem rollLoop_slots {α : Type} [DecidableEq α] :
    ∀ (rem i : Nat) (merged : Option (RBatch α)) (s : Spine α) (m' : Option (RBatch α))
      (s' : Spine α), Spine.rollLoop rem i merged s = .ok (m', s') →
      (∀ j, j < i → s'.merging.getD j MergeState.Vacant = s.merging.getD j MergeState.Vacant) ∧
      (∀ j, i ≤ j → j < i + rem → s'.merging.getD j MergeState.Vacant = MergeState.Vacant) := by
  intro rem
  induction rem with
  | zero =>
      intro i merged s m' s' h; cases h
      exact ⟨fun j _ => rfl, fun j h1 h2 => by omega⟩
  | succ rem ih =>
      intro i merged s m' s' h
      unfold Spine.rollLoop at h
      split at h
      · exact absurd h (by simp)
      · rename_i s1 h1
        split at h
        · exact absurd h (by simp)
        · rename_i m2 s2 h2
          obtain ⟨hlow, hrange⟩ := ih _ _ _ _ _ h
          have hm2 : s2.merging = s1.merging.set i MergeState.Vacant :=
            complete_at_merging _ _ _ _ h2
          constructor
          · intro j hj
            rw [hlow j (by omega), hm2, getD_set_ne _ _ _ _ _ (by omega)]
            exact insert_at_getD_ne _ _ _ _ h1 j (by omega)
          · intro j hij hupper
            by_cases hji : j = i
            · subst hji
              rw [hlow j (by omega), hm2]
              exact getD_set_vacant _ _
            · exact hrange j (by omega) (by omega)

theorem take_all_vacant_getD {α : Type} :
    ∀ (l : List (MergeState α)) (n j : Nat),
      (l.take n).any (fun m => !m.is_vacant) = false → j < n →
      l.getD j MergeState.Vacant = MergeState.Vacant := by
  intro l
  induction l with
  | nil => intro n j _ _; cases j <;> rfl
  | cons a l ih =>
      intro n j h hj
      cases n with
      | zero => omega
      | succ n =>
          simp only [List.take_succ_cons, List.any_cons, Bool.or_eq_false_iff] at h
          cases j with
          | zero =>
              cases a with
              | Vacant => rfl
              | Single b => simp [MergeState.is_vacant] at h
              | Double v => simp [MergeState.is_vacant] at h
          | succ j => exact ih n j h.2 (by omega)

theorem roll_up_slots {α : Type} [DecidableEq α] (s : Spine α) (idx : Nat) (s' : Spine α)
    (h : Spine.roll_up s idx = .ok s') :
    ∀ i, i < idx → s'.merging.getD i MergeState.Vacant = MergeState.Vacant := by
  unfold Spine.roll_up at h
  dsimp only at h
  split at h
  · rename_i hany
    split at h
    · exact absurd h (by simp)
    · rename_i merged s1 h1
      obtain ⟨hlow1, hrange1⟩ := rollLoop_slots _ _ _ _ _ _ h1
      split at h
      · exact absurd h (by simp)
      · rename_i s2 h2
        split at h
        · split at h
          · exact absurd h (by simp)
          · rename_i m2 s3 h3
            intro i hi
            rw [insert_at_getD_ne _ _ _ _ h i (by omega)]
            rw [complete_at_merging _ _ _ _ h3, getD_set_ne _ _ _ _ _ (by omega)]
            rw [insert_at_getD_ne _ _ _ _ h2 i (by omega)]
            exact hrange1 i (by omega) (by omega)
        · cases h
          intro i hi
          rw [insert_at_getD_ne _ _ _ _ h2 i (by omega)]
          exact hrange1 i (by omega) (by omega)
  · rename_i hany
    cases h
    intro i hi
    exact take_all_vacant_getD _ idx i (by simpa using hany) hi

/-- C7 (amended): a batch admitted from `pending` is introduced at level
`⌈log2(batch.len())⌉` (the `batch_level` characterization), with all
non-vacant lower levels rolled up first (after `roll_up` every level
below the target is vacant); the target slot must be `Vacant` (the batch
then occupies it alone) or `Single` (a merge with the resident batch
begins); placing a batch into a `Double` slot panics. -/
theorem admitted_batch_level_and_slot {α : Type} [DecidableEq α] :
    (∀ n : Nat, 1 ≤ n → n ≤ 2 ^ batch_level n ∧ ∀ m, n ≤ 2 ^ m → batch_level n ≤ m) ∧
    (∀ (le : α → α → Bool) (s : Spine α) (b : RBatch α) (rest : List (RBatch α)),
      s.pending = b :: rest → dominates le s.through_frontier b.upper = true →
      Spine.consider_merges le s =
        (match Spine.introduce_batch {s with pending := rest} (some b) (batch_level b.len) with
         | .error e => .error e
         | .ok s1 => Spine.considerLoop le rest.length s1)) ∧
    (∀ (s : Spine α) (idx : Nat) (s' : Spine α), Spine.roll_up s idx = .ok s' →
      ∀ i, i < idx → s'.merging.getD i MergeState.Vacant = MergeState.Vacant) ∧
    (∀ (s : Spine α) (b : Option (RBatch α)) (idx : Nat),
      (∀ v, s.merging.getD idx MergeState.Vacant = .Double v →
        ∃ msg, Spine.insert_at s b idx = .error msg) ∧
      (∀ s', Spine.insert_at s b idx = .ok s' →
        (s.merging.getD idx MergeState.Vacant = .Vacant →
          s'.merging.getD idx MergeState.Vacant = .Single b) ∧
        (∀ old, s.merging.getD idx MergeState.Vacant = .Single old →
          ∃ v, s'.merging.getD idx MergeState.Vacant = .Double v))) := by
  refine ⟨batch_level_spec, ?_, roll_up_slots, ?_⟩
  · intro le s b rest hpend hdom
    have hstep : ∀ (fuel : Nat) (t : Spine α), Spine.considerLoop le (fuel + 1) t =
        (match t.pending with
         | [] => Except.ok t
         | b2 :: rest2 =>
            if dominates le t.through_frontier b2.upper then
              match Spine.introduce_batch {t with pending := rest2} (some b2)
                  (batch_level b2.len) with
              | .error e => .error e
              | .ok s1 => Spine.considerLoop le fuel s1
            else Except.ok t) := fun fuel t => rfl
    unfold Spine.consider_merges
    rw [hpend, List.length_cons, hstep, hpend]
    exact if_pos hdom
  · intro s b idx
    constructor
    · intro v hv
      unfold Spine.insert_at
      dsimp only
      rw [show (padVacant s.merging (idx + 1)).getD idx MergeState.Vacant = MergeState.Double v
        from (getD_padVacant _ _ _).trans hv]
      exact ⟨_, rfl⟩
    · intro s' h
      constructor
      · intro hvac
        unfold Spine.insert_at at h
        dsimp only at h
        rw [show (padVacant s.merging (idx + 1)).getD idx MergeState.Vacant = MergeState.Vacant
          from (getD_padVacant _ _ _).trans hvac] at h
        dsimp only at h
        cases h
        exact getD_set_self _ _ _ _ (by have := padVacant_le_length s.merging (idx + 1); omega)
      · intro old hold
        unfold Spine.insert_at at h
        dsimp only at h
        rw [show (padVacant s.merging (idx + 1)).getD idx MergeState.Vacant = MergeState.Single old
          from (getD_padVacant _ _ _).trans hold] at h
        dsimp only at h
        split at h
        · exact absurd h (by simp)
        · rename_i st hst
          obtain ⟨v, rfl⟩ := begin_merge_double _ _ _ _ hst
          cases h
          exact ⟨v, getD_set_self _ _ _ _
            (by have := padVacant_le_length s.merging (idx + 1); omega)⟩

/-- C7 counterexample: admitting the batch `[1, 2)` into a spine whose
level-0 slot holds the single batch `[0, 1)` places it into that
non-vacant slot, starting a merge — the claim that an admitted batch is
placed only into a vacant slot is false. -/
theorem insert_into_single_slot :
    c7_state.merging.getD 0 MergeState.Vacant = MergeState.Single (some c7_b0) ∧
    Spine.insert leN c7_state c7_b1 = .ok c7_after ∧
    c7_after.merging.getD 0 MergeState.Vacant =
      MergeState.Double (MergeVariant.InProgress c7_b0 c7_b1 (some [0]) ⟨2⟩) :=
  ⟨rfl, rfl, rfl⟩

/-- C7 witness: the amended theorem applied at concrete inputs: the
level of a 5-record batch is `⌈log2 5⌉ = 3`, and inserting into a
`Double` slot panics. -/
theorem admitted_batch_level_and_slot_witness :
    (5 ≤ 2 ^ batch_level 5 ∧ batch_level 5 ≤ 3) ∧
    (∃ msg, Spine.insert_at c7_double_state none 0 = .error msg) := by
  have h := admitted_batch_level_and_slot (α := Nat)
  refine ⟨?_, ?_⟩
  · obtain ⟨h1, h2⟩ := h.1 5 (by decide)
    exact ⟨h1, h2 3 (by decide)⟩
  · exact (h.2.2.2 c7_double_state none 0).1 (MergeVariant.Complete none) rfl

theorem dominates_trans {α : Type} (le : α → α → Bool)
    (htrans : ∀ a b c, le a b = true → le b c = true → le a c = true)
    (A B C : List α) (h1 : dominates le A B = true) (h2 : dominates le B C = true) :
    dominates le A C = true := by
  unfold dominates at h1 h2 ⊢
  rw [List.all_eq_true] at h1 h2 ⊢
  intro a ha
  obtain ⟨b, hbB, hba⟩ := List.any_eq_true.mp (h1 a ha)
  obtain ⟨c, hcC, hcb⟩ := List.any_eq_true.mp (h2 b hbB)
  exact List.any_eq_true.mpr ⟨c, hcC, htrans c b a hcb hba⟩

theorem pendingScan_ok_iff {α : Type} [DecidableEq α] (le : α → α → Bool) (upper : List α) :
    ∀ ps : List (RBatch α), (∃ l, pendingScan le upper ps = .ok l) ↔
      ∀ b ∈ ps, ¬ straddleTrigger le upper b := by
  intro ps
  induction ps with
  | nil =>
      constructor
      · intro _ b hb; exact absurd hb (List.not_mem_nil b)
      · intro _; exact ⟨[], rfl⟩
  | cons x rest ih =>
      constructor
      · rintro ⟨l, hl⟩ b hb
        unfold pendingScan at hl
        dsimp only at hl
        split at hl
        · rename_i hlen
          split at hl
          · exact absurd hl (by simp)
          · rename_i hns
            split at hl
            · exact absurd hl (by simp)
            · rename_i tail htail
              rcases List.mem_cons.mp hb with hb | hb
              · subst hb
                rintro ⟨h1, h2, h3⟩
                exact hns ⟨h2, h3⟩
              · exact (ih.mp ⟨tail, htail⟩) b hb
        · rename_i hlen
          rcases List.mem_cons.mp hb with hb | hb
          · subst hb
            rintro ⟨h1, _, _⟩
            exact hlen h1
          · exact (ih.mp ⟨l, hl⟩) b hb
      · intro hall
        unfold pendingScan
        dsimp only
        split
        · rename_i hlen
          have hns : ¬(dominates le upper x.lower ≠ dominates le upper x.upper ∧
              upper ≠ x.lower) := by
            intro hcon
            exact hall x (List.mem_cons_self x rest) ⟨hlen, hcon.1, hcon.2⟩
          rw [if_neg hns]
          obtain ⟨tail, htail⟩ := ih.mpr (fun b hb => hall b (List.mem_cons_of_mem x hb))
          rw [htail]
          exact ⟨_, rfl⟩
        · exact ih.mpr (fun b hb => hall b (List.mem_cons_of_mem x hb))

theorem pendingScan_mem {α : Type} [DecidableEq α] (le : α → α → Bool) (upper : List α) :
    ∀ (ps l : List (RBatch α)), pendingScan le upper ps = .ok l →
      ∀ b, b ∈ l ↔ b ∈ ps ∧ b.len ≠ 0 ∧ dominates le upper b.upper = true := by
  intro ps
  induction ps with
  | nil =>
      intro l hl b
      cases hl
      simp
  | cons x rest ih =>
      intro l hl b
      unfold pendingScan at hl
      dsimp only at hl
      split at hl
      · rename_i hlen
        split at hl
        · exact absurd hl (by simp)
        · rename_i hns
          split at hl
          · exact absurd hl (by simp)
          · rename_i tail htail
            cases hl
            have hmt := ih tail htail
            by_cases hiu : dominates le upper x.upper = true
            · rw [if_pos hiu]
              constructor
              · intro hb
                rcases List.mem_cons.mp hb with hb | hb
                · subst hb; exact ⟨List.mem_cons_self _ _, hlen, hiu⟩
                · obtain ⟨h1, h2, h3⟩ := (hmt b).mp hb
                  exact ⟨List.mem_cons_of_mem x h1, h2, h3⟩
              · rintro ⟨hmem, hblen, hbdom⟩
                rcases List.mem_cons.mp hmem with hbx | hbx
                · subst hbx; exact List.mem_cons_self b tail
                · exact List.mem_cons_of_mem x ((hmt b).mpr ⟨hbx, hblen, hbdom⟩)
            · rw [if_neg hiu]
              constructor
              · intro hb
                obtain ⟨h1, h2, h3⟩ := (hmt b).mp hb
                exact ⟨List.mem_cons_of_mem x h1, h2, h3⟩
              · rintro ⟨hmem, hblen, hbdom⟩
                rcases List.mem_cons.mp hmem with hbx | hbx
                · subst hbx; exact absurd hbdom hiu
                · exact (hmt b).mpr ⟨hbx, hblen, hbdom⟩
      · rename_i hlen
        have hmt := ih l hl
        constructor
        · intro hb
          obtain ⟨h1, h2, h3⟩ := (hmt b).mp hb
          exact ⟨List.mem_cons_of_mem x h1, h2, h3⟩
        · rintro ⟨hmem, hblen, hbdom⟩
          rcases List.mem_cons.mp hmem with hbx | hbx
          · subst hbx; exact absurd hblen hlen
          · exact (hmt b).mpr ⟨hbx, hblen, hbdom⟩

/-- C3: under the invariant that every batch in the merging layers has
its upper frontier dominated by the through frontier (which admission
maintains), a successful `cursor_through(upper)` includes a batch with
updates exactly when `upper` dominates the batch's upper frontier; the
call panics exactly when some non-empty pending batch is straddled
(`include_lower != include_upper` and `upper != batch.lower`); and a
non-empty pending batch whose time interval is non-trivial and lies
entirely at or beyond `upper` (`upper ≤ batch.lower`) is excluded. -/
theorem cursor_through_inclusion {α : Type} [DecidableEq α] (le : α → α → Bool)
    (s : Spine α) (upper : List α)
    (htrans : ∀ a b c, le a b = true → le b c = true → le a c = true)
    (hadv : s.advance_frontier ≠ [])
    (hthr : dominates le upper s.through_frontier = true)
    (hinv : ∀ b ∈ Spine.mergingBatches s, dominates le s.through_frontier b.upper = true) :
    ((∃ r, Spine.cursor_through le s upper = .ok r) ↔
      ∀ b ∈ s.pending, ¬ straddleTrigger le upper b) ∧
    (∀ r, Spine.cursor_through le s upper = .ok (some r) →
      ∀ b, b ∈ r ↔ ((b ∈ Spine.mergingBatches s ∨ b ∈ s.pending) ∧ b.len ≠ 0 ∧
        dominates le upper b.upper = true)) ∧
    (∀ b ∈ s.pending, b.len ≠ 0 →
      (∃ t, b.lower.any (fun l2 => le l2 t) = true ∧ b.upper.any (fun u2 => le u2 t) = false) →
      frontier_le le upper b.lower = true →
      ∀ r, Spine.cursor_through le s upper = .ok (some r) → b ∉ r) := by
  have hlen : ¬ s.advance_frontier.length = 0 := by
    intro h
    exact hadv (List.length_eq_zero.mp h)
  have hct : Spine.cursor_through le s upper =
      (match pendingScan le upper s.pending with
       | .error e => .error e
       | .ok included =>
           .ok (some ((Spine.mergingBatches s).filter (fun b => b.len != 0) ++ included))) := by
    unfold Spine.cursor_through
    rw [if_neg hlen, if_neg (by simp [hthr])]
  have hmem : ∀ r, Spine.cursor_through le s upper = .ok (some r) →
      ∀ b, b ∈ r ↔ ((b ∈ Spine.mergingBatches s ∨ b ∈ s.pending) ∧ b.len ≠ 0 ∧
        dominates le upper b.upper = true) := by
    intro r hr b
    rw [hct] at hr
    rcases hscan : pendingScan le upper s.pending with e | l
    · rw [hscan] at hr; exact absurd hr (by simp)
    · rw [hscan] at hr
      cases hr
      rw [List.mem_append, List.mem_filter]
      rw [pendingScan_mem le upper s.pending l hscan b]
      constructor
      · rintro (⟨hm, hlen0⟩ | ⟨hp, hlen0, hdom⟩)
        · refine ⟨Or.inl hm, by simpa using hlen0, ?_⟩
          exact dominates_trans le htrans upper s.through_frontier b.upper hthr (hinv b hm)
        · exact ⟨Or.inr hp, hlen0, hdom⟩
      · rintro ⟨hm | hp, hlen0, hdom⟩
        · exact Or.inl ⟨hm, by simpa using hlen0⟩
        · exact Or.inr ⟨hp, hlen0, hdom⟩
  refine ⟨?_, hmem, ?_⟩
  · rw [← pendingScan_ok_iff le upper s.pending]
    constructor
    · rintro ⟨r, hr⟩
      rw [hct] at hr
      rcases hscan : pendingScan le upper s.pending with e | l
      · rw [hscan] at hr; exact absurd hr (by simp)
      · exact ⟨l, rfl⟩
    · rintro ⟨l, hl⟩
      rw [hct, hl]
      exact ⟨_, rfl⟩
  · intro b hbp hblen hINE hfle r hr hbr
    obtain ⟨t, hl, hu⟩ := hINE
    have hdom := ((hmem r hr b).mp hbr).2.2
    obtain ⟨l0, hl0mem, hl0t⟩ := List.any_eq_true.mp hl
    unfold frontier_le at hfle
    rw [List.all_eq_true] at hfle
    obtain ⟨u0, hu0mem, hu0l0⟩ := List.any_eq_true.mp (hfle l0 hl0mem)
    unfold dominates at hdom
    rw [List.all_eq_true] at hdom
    obtain ⟨t2, ht2mem, ht2u0⟩ := List.any_eq_true.mp (hdom u0 hu0mem)
    have hle : le t2 t = true := htrans _ _ _ (htrans _ _ _ ht2u0 hu0l0) hl0t
    have htrue : b.upper.any (fun u2 => le u2 t) = true :=
      List.any_eq_true.mpr ⟨t2, ht2mem, hle⟩
    rw [hu] at htrue
    exact Bool.false_ne_true htrue

/-- C3 witness: the theorem applied to a concrete spine with one merging
batch and one pending batch, discharging every hypothesis; the merging
batch is enumerated by the concrete cursor. -/
theorem cursor_through_inclusion_witness :
    (⟨[0], [1], 1⟩ : RBatch Nat) ∈ c3_list ∧
    Spine.cursor_through leN c3_state [3] = .ok (some c3_list) := by
  have htrans : ∀ a b c : Nat, leN a b = true → leN b c = true → leN a c = true := by
    intro a b c h1 h2
    simp only [leN, Nat.ble_eq] at h1 h2 ⊢
    omega
  have h := cursor_through_inclusion leN c3_state [3] htrans (by decide) (by decide) (by decide)
  refine ⟨?_, rfl⟩
  exact (h.2.1 c3_list rfl ⟨[0], [1], 1⟩).mpr ⟨Or.inl (by decide), by decide, by decide⟩

/-- C9: `validate` is (definitionally) `propose_then` applied with the
key `(key_fn(p), v)` and the unit-stripping post-map, and it produces
exactly the spec-level output: each extension `((p, v), r)` yields the
pair with weight `r * count(key_fn(p), v)`, and pairs with zero count
are dropped. -/
theorem validate_eq_propose_then_spec {P V K : Type} (key_selector : P → K)
    (extensions : List ((P × V) × Int)) (count : (K × V) → Int) :
    validate key_selector extensions count =
      propose_then extensions count (fun pv => (key_selector pv.1, pv.2))
        (fun pv _ => (pv.1, pv.2)) ∧
    validate key_selector extensions count = validate_spec key_selector extensions count := by
  refine ⟨rfl, ?_⟩
  unfold validate propose_then validate_spec
  rfl

theorem altNeu_le_neu_alt (a b : Nat) : AltNeu.le (AltNeu.neu a) (AltNeu.alt b) ↔ a < b := by
  unfold AltNeu.le AltNeu.alt AltNeu.neu
  dsimp only
  constructor
  · rintro ⟨h1, h2⟩
    rcases Nat.lt_or_ge a b with h | h
    · exact h
    · have he : a = b := by omega
      rcases h2 he with h3 | h3
      · exact absurd h3 (by decide)
      · exact absurd h3 (by decide)
  · intro h
    exact ⟨by omega, fun he => absurd he (by omega)⟩

theorem altNeu_le_alt_alt (a b : Nat) : AltNeu.le (AltNeu.alt a) (AltNeu.alt b) ↔ a ≤ b := by
  unfold AltNeu.le AltNeu.alt
  dsimp only
  constructor
  · rintro ⟨h1, -⟩
    exact h1
  · intro h
    exact ⟨h, fun _ => Or.inl rfl⟩

theorem mem_instTriples (E : Finset (Nat × Nat)) (x : Nat × Nat × Nat) :
    x ∈ instTriples E ↔ isInstance E x.1 x.2.1 x.2.2 := by
  unfold instTriples
  rw [Finset.mem_filter]
  constructor
  · rintro ⟨-, h⟩
    exact h
  · intro h
    refine ⟨?_, h⟩
    obtain ⟨h1, h2, h3⟩ := h
    simp only [Finset.mem_product]
    unfold verts
    refine ⟨?_, ?_, ?_⟩
    · exact Finset.mem_union.mpr (Or.inl (Finset.mem_image.mpr ⟨(x.1, x.2.1), h1, rfl⟩))
    · exact Finset.mem_union.mpr (Or.inr (Finset.mem_image.mpr ⟨(x.1, x.2.1), h1, rfl⟩))
    · exact Finset.mem_union.mpr (Or.inr (Finset.mem_image.mpr ⟨(x.2.1, x.2.2), h2, rfl⟩))

theorem delta_sum_eq_card (E : Finset (Nat × Nat)) (τ : Nat × Nat → Nat) :
    deltaQuerySum E τ = (instTriples E).card := by
  unfold deltaQuerySum deltaStream1 deltaStream2 deltaStream3
  simp only [Finset.card_eq_sum_ones]
  rw [Finset.sum_filter, Finset.sum_filter, Finset.sum_filter, ← Finset.sum_add_distrib,
    ← Finset.sum_add_distrib]
  apply Finset.sum_congr rfl
  intro x hx
  unfold delta1Cond delta2Cond delta3Cond
  simp only [altNeu_le_neu_alt, altNeu_le_alt_alt]
  split_ifs <;> omega

theorem instTriples_distinct (E : Finset (Nat × Nat)) (hirr : ∀ x, (x, x) ∉ E)
    (x : Nat × Nat × Nat) (hx : x ∈ instTriples E) :
    x.1 ≠ x.2.1 ∧ x.2.1 ≠ x.2.2 ∧ x.1 ≠ x.2.2 := by
  rw [mem_instTriples] at hx
  obtain ⟨h1, h2, h3⟩ := hx
  refine ⟨?_, ?_, ?_⟩
  · intro he; rw [he] at h1; exact hirr _ h1
  · intro he; rw [he] at h2; exact hirr _ h2
  · intro he; rw [he] at h3; exact hirr _ h3

/-- C8: for the triangle query `Q(a,b,c) = E1(a,b) ∧ E2(b,c) ∧ E3(a,c)`
with `E1 = E2 = E3 = E` (an undirected graph: symmetric and
irreflexive), the three delta-query streams under the `AltNeu` ordering
partition the ordered instances — each instance is emitted by exactly
one stream, whatever the edge arrival times — and their total equals
`6 ×` the number of triangles of `E`. -/
theorem triangle_delta_sum (E : Finset (Nat × Nat)) (τ : Nat × Nat → Nat)
    (hsym : ∀ x y, (x, y) ∈ E → (y, x) ∈ E)
    (hirr : ∀ x, (x, x) ∉ E) :
    deltaQuerySum E τ = 6 * triangleCount E := by
  rw [delta_sum_eq_card]
  have hsplit : (instTriples E).card =
      ((instTriples E).filter (fun x => x.1 < x.2.1 ∧ x.2.1 < x.2.2)).card +
      ((instTriples E).filter (fun x => x.1 < x.2.2 ∧ x.2.2 < x.2.1)).card +
      ((instTriples E).filter (fun x => x.2.1 < x.1 ∧ x.1 < x.2.2)).card +
      ((instTriples E).filter (fun x => x.2.1 < x.2.2 ∧ x.2.2 < x.1)).card +
      ((instTriples E).filter (fun x => x.2.2 < x.1 ∧ x.1 < x.2.1)).card +
      ((instTriples E).filter (fun x => x.2.2 < x.2.1 ∧ x.2.1 < x.1)).card := by
    simp only [Finset.card_eq_sum_ones]
    rw [Finset.sum_filter, Finset.sum_filter, Finset.sum_filter, Finset.sum_filter,
      Finset.sum_filter, Finset.sum_filter, ← Finset.sum_add_distrib, ← Finset.sum_add_distrib,
      ← Finset.sum_add_distrib, ← Finset.sum_add_distrib, ← Finset.sum_add_distrib]
    apply Finset.sum_congr rfl
    intro x hx
    obtain ⟨hd1, hd2, hd3⟩ := instTriples_distinct E hirr x hx
    split_ifs <;> omega
  have hb2 : ((instTriples E).filter (fun x => x.1 < x.2.2 ∧ x.2.2 < x.2.1)).card =
      ((instTriples E).filter (fun x => x.1 < x.2.1 ∧ x.2.1 < x.2.2)).card := by
    apply Finset.card_nbij' (fun x => (x.1, x.2.2, x.2.1)) (fun y => (y.1, y.2.2, y.2.1))
    · intro x hx
      rw [Finset.mem_filter, mem_instTriples] at hx ⊢
      obtain ⟨⟨e1, e2, e3⟩, o1, o2⟩ := hx
      exact ⟨⟨e3, hsym _ _ e2, e1⟩, o1, o2⟩
    · intro y hy
      rw [Finset.mem_filter, mem_instTriples] at hy ⊢
      obtain ⟨⟨e1, e2, e3⟩, o1, o2⟩ := hy
      exact ⟨⟨e3, hsym _ _ e2, e1⟩, o1, o2⟩
    · intro x _; rfl
    · intro y _; rfl
  have hb3 : ((instTriples E).filter (fun x => x.2.1 < x.1 ∧ x.1 < x.2.2)).card =
      ((instTriples E).filter (fun x => x.1 < x.2.1 ∧ x.2.1 < x.2.2)).card := by
    apply Finset.card_nbij' (fun x => (x.2.1, x.1, x.2.2)) (fun y => (y.2.1, y.1, y.2.2))
    · intro x hx
      rw [Finset.mem_filter, mem_instTriples] at hx ⊢
      obtain ⟨⟨e1, e2, e3⟩, o1, o2⟩ := hx
      exact ⟨⟨hsym _ _ e1, e3, e2⟩, o1, o2⟩
    · intro y hy
      rw [Finset.mem_filter, mem_instTriples] at hy ⊢
      obtain ⟨⟨e1, e2, e3⟩, o1, o2⟩ := hy
      exact ⟨⟨hsym _ _ e1, e3, e2⟩, o1, o2⟩
    · intro x _; rfl
    · intro y _; rfl
  have hb4 : ((instTriples E).filter (fun x => x.2.1 < x.2.2 ∧ x.2.2 < x.1)).card =
      ((instTriples E).filter (fun x => x.1 < x.2.1 ∧ x.2.1 < x.2.2)).card := by
    apply Finset.card_nbij' (fun x => (x.2.1, x.2.2, x.1)) (fun y => (y.2.2, y.1, y.2.1))
    · intro x hx
      rw [Finset.mem_filter, mem_instTriples] at hx ⊢
      obtain ⟨⟨e1, e2, e3⟩, o1, o2⟩ := hx
      exact ⟨⟨e2, hsym _ _ e3, hsym _ _ e1⟩, o1, o2⟩
    · intro y hy
      rw [Finset.mem_filter, mem_instTriples] at hy ⊢
      obtain ⟨⟨e1, e2, e3⟩, o1, o2⟩ := hy
      exact ⟨⟨hsym _ _ e3, e1, hsym _ _ e2⟩, o1, o2⟩
    · intro x _; rfl
    · intro y _; rfl
  have hb5 : ((instTriples E).filter (fun x => x.2.2 < x.1 ∧ x.1 < x.2.1)).card =
      ((instTriples E).filter (fun x => x.1 < x.2.1 ∧ x.2.1 < x.2.2)).card := by
    apply Finset.card_nbij' (fun x => (x.2.2, x.1, x.2.1)) (fun y => (y.2.1, y.2.2, y.1))
    · intro x hx
      rw [Finset.mem_filter, mem_instTriples] at hx ⊢
      obtain ⟨⟨e1, e2, e3⟩, o1, o2⟩ := hx
      exact ⟨⟨hsym _ _ e3, e1, hsym _ _ e2⟩, o1, o2⟩
    · intro y hy
      rw [Finset.mem_filter, mem_instTriples] at hy ⊢
      obtain ⟨⟨e1, e2, e3⟩, o1, o2⟩ := hy
      exact ⟨⟨e2, hsym _ _ e3, hsym _ _ e1⟩, o1, o2⟩
    · intro x _; rfl
    · intro y _; rfl
  have hb6 : ((instTriples E).filter (fun x => x.2.2 < x.2.1 ∧ x.2.1 < x.1)).card =
      ((instTriples E).filter (fun x => x.1 < x.2.1 ∧ x.2.1 < x.2.2)).card := by
    apply Finset.card_nbij' (fun x => (x.2.2, x.2.1, x.1)) (fun y => (y.2.2, y.2.1, y.1))
    · intro x hx
      rw [Finset.mem_filter, mem_instTriples] at hx ⊢
      obtain ⟨⟨e1, e2, e3⟩, o1, o2⟩ := hx
      exact ⟨⟨hsym _ _ e2, hsym _ _ e1, hsym _ _ e3⟩, o1, o2⟩
    · intro y hy
      rw [Finset.mem_filter, mem_instTriples] at hy ⊢
      obtain ⟨⟨e1, e2, e3⟩, o1, o2⟩ := hy
      exact ⟨⟨hsym _ _ e2, hsym _ _ e1, hsym _ _ e3⟩, o1, o2⟩
    · intro x _; rfl
    · intro y _; rfl
  unfold triangleCount
  omega

/-- C8 witness: the theorem applied to the concrete triangle `{1,2,3}`
stored in both directions, with edge times given by the source vertex:
the three delta streams total `6 = 6 × 1` triangle. -/
theorem triangle_delta_sum_witness :
    deltaQuerySum c8_edges (fun e => e.1) = 6 * triangleCount c8_edges ∧
    triangleCount c8_edges = 1 := by
  constructor
  · apply triangle_delta_sum
    · intro x y hxy
      simp only [c8_edges, Finset.mem_insert, Finset.mem_singleton] at hxy ⊢
      rcases hxy with h | h | h | h | h | h <;>
        (rw [Prod.mk.injEq] at h; obtain ⟨rfl, rfl⟩ := h; decide)
    · intro x hx
      simp only [c8_edges, Finset.mem_insert, Finset.mem_singleton] at hx
      rcases hx with h | h | h | h | h | h <;> (rw [Prod.mk.injEq] at h; omega)
  · decide
